import Mathlib

/-!
Verification of the dependency resolution engine of the code-review CLI
(`src/dependencies/index.js`, `src/files/index.js`, `src/commands/fastScan.js`).

The JavaScript source is shallowly embedded: asynchronous filesystem and
subprocess effects are abstracted as a record of ports (`FS`), fallible
operations return `Option` or `Except`, and the recursive traversal of
`getDependencies` is written with an explicit fuel argument so that it is
structurally recursive and computable (the JavaScript recursion terminates
because its `processed` set only grows inside a finite file set; the fuel
bound chosen below exceeds the number of traversal steps on every input
used in a theorem, and every universally quantified theorem below holds
for every fuel value).
-/

namespace CRC

/-- Absolute file paths, as plain strings (the JS code keys its maps and
sets by the string value of the path). -/
abbrev Path := String

/-! ## Path helpers (Node `path` module, POSIX behaviour)

The embeddings work on character lists throughout, so that every
definition evaluates inside the kernel on concrete paths. -/

/-- Does `s` start with the literal `pre` (the `String.startsWith` of
the source, character for character)? -/
def startsWithLit (s pre : String) : Bool :=
  s.toList.take pre.toList.length = pre.toList

/-- `path.isAbsolute` on POSIX: the path starts with a slash. -/
def isAbsolute (p : String) : Bool :=
  startsWithLit p "/"

/-- Split a character list at every occurrence of a separator. -/
def splitOnSep (sep : Char) : List Char → List (List Char)
  | [] => [[]]
  | x :: rest =>
    let r := splitOnSep sep rest
    if x = sep then [] :: r
    else
      match r with
      | h :: t => (x :: h) :: t
      | [] => [[x]]

/-- Interleave a separator between parts (the `Array.join` of the
path module). -/
def joinWithSep (sep : Char) : List (List Char) → List Char
  | [] => []
  | [p] => p
  | p :: rest => p ++ sep :: joinWithSep sep rest

/-- Index of the last dot of a character list, if any. -/
def lastDotIdx (cs : List Char) : Option Nat :=
  (cs.enum.filter (fun e => e.2 = '.')).getLast?.map (·.1)

/-- The basename of a path: everything after the last slash. -/
def basenameOf (p : String) : List Char :=
  ((splitOnSep '/' p.toList).getLast?).getD p.toList

/-- `path.extname`: the suffix of the basename from its last dot, empty when
the basename has no dot or only a leading dot (dotfiles). -/
def extname (p : String) : String :=
  let base := basenameOf p
  match lastDotIdx base with
  | none => ""
  | some 0 => ""
  | some i => ⟨base.drop i⟩

/-- ASCII lowercasing of one character (the `toLowerCase` the source
applies to extensions, which are ASCII). -/
def lowerChar (c : Char) : Char :=
  if 65 ≤ c.toNat ∧ c.toNat ≤ 90 then Char.ofNat (c.toNat + 32) else c

/-- `toLowerCase` of a string, character by character. -/
def lowerStr (s : String) : String :=
  ⟨s.toList.map lowerChar⟩

/-- `path.dirname`: the path up to the last slash, `"."` when there is no
slash, `"/"` when the remainder is the root. -/
def dirname (p : String) : String :=
  let parts := splitOnSep '/' p.toList
  if parts.length ≤ 1 then "."
  else
    let front := parts.dropLast
    if front.all List.isEmpty then "/" else ⟨joinWithSep '/' front⟩

/-- Resolve `..` and `.` segments of a slash-split path, root-relative
(a `..` at the root is dropped, as `path.resolve` does). -/
def normalizeParts : List (List Char) → List (List Char) → List (List Char)
  | acc, [] => acc.reverse
  | acc, part :: rest =>
    if part.isEmpty ∨ part = ['.'] then normalizeParts acc rest
    else if part = ['.', '.'] then
      match acc with
      | [] => normalizeParts [] rest
      | _ :: t => normalizeParts t rest
    else normalizeParts (part :: acc) rest

/-- `path.resolve(dir, s)` for an absolute `dir`: absolute `s` is
normalized as is, otherwise `s` is joined onto `dir` and normalized. -/
def pathResolve (dir s : String) : String :=
  let full := if isAbsolute s then s else dir ++ "/" ++ s
  ⟨'/' :: joinWithSep '/' (normalizeParts [] (splitOnSep '/' full.toList))⟩

/-- `path.join(a, b)` restricted to the use below (building the
`node_modules` probe path): concatenation with a separator, with `.` and
`..` segments normalized. -/
def joinPath (a b : String) : String :=
  let parts := normalizeParts [] (splitOnSep '/' (a ++ "/" ++ b).toList)
  if isAbsolute a then ⟨'/' :: joinWithSep '/' parts⟩
  else ⟨joinWithSep '/' parts⟩

/-! ## Raw references (the records pushed by the extractors)

`extractImportsFromJS` pushes objects of shape
`{ type, source, specifiers? }`, the Python extractor pushes
`{ type, source }`.  The `specifiers` field of a require-record is absent
in JS; it is modelled as the empty list, no claim inspects it. -/

/-- One entry of an ES6 `specifiers` array: the source computes
`imported` as `s.imported ? s.imported.name : "default"` and `local` as
`s.local.name` (field renamed `localName`, `local` is a keyword here). -/
structure Specifier where
  imported : String
  localName : String
  deriving Repr, DecidableEq

/-- A raw import record as pushed by the extractors: `type` is
`"import"`, `"require"` or `"import_from"`, `source` the raw module
specifier string. -/
structure ImportRec where
  type : String
  source : String
  specifiers : List Specifier := []
  deriving Repr, DecidableEq

/-! ## The Babel syntax tree, generically

The source walks the parsed tree generically: for every enumerable field
it recurses into arrays element by element, and into single objects only
when they carry a truthy `type`; the fields `parent`, `leadingComments`
and `trailingComments` are skipped.  A node is modelled as an optional
`type` tag (absent or empty both mean falsy) together with its fields in
enumeration order; a field holds a string, a single object or an array of
objects. -/

mutual

inductive JNode where
  | mk (ty : Option String) (fields : List JField)

inductive JField where
  | str (key : String) (value : String)
  | obj (key : String) (node : JNode)
  | arr (key : String) (nodes : List JNode)

end

/-- The `type` tag of a node. -/
def JNode.ty : JNode → Option String
  | .mk t _ => t

/-- The field list of a node. -/
def JNode.fields : JNode → List JField
  | .mk _ fs => fs

/-- The key a field is stored under. -/
def JField.key : JField → String
  | .str k _ => k
  | .obj k _ => k
  | .arr k _ => k

/-- Look up a string-valued field (e.g. `name`, `value`); `none` models
the JS value `undefined`. -/
def getStr (n : JNode) (k : String) : Option String :=
  n.fields.findSome? fun f =>
    match f with
    | .str key v => if key = k then some v else none
    | _ => none

/-- Look up a single-object field (e.g. `callee`, `source`, `local`). -/
def getObj (n : JNode) (k : String) : Option JNode :=
  n.fields.findSome? fun f =>
    match f with
    | .obj key v => if key = k then some v else none
    | _ => none

/-- Look up an array field (e.g. `arguments`, `specifiers`, `body`). -/
def getArr (n : JNode) (k : String) : Option (List JNode) :=
  n.fields.findSome? fun f =>
    match f with
    | .arr key v => if key = k then some v else none
    | _ => none

/-- Truthiness of a `type` tag: present and non-empty. -/
def tyTruthy (t : Option String) : Bool :=
  match t with
  | some s => s ≠ ""
  | none => false

/-- The `specifiers` mapping of an `ImportDeclaration`:
`s.imported ? s.imported.name : "default"` and `s.local.name`.  A
missing `name` (which would make the JS walker throw into the regex
fallback) is modelled as the empty string; no well-formed Babel tree
produces it. -/
def specsOf (nd : JNode) : List Specifier :=
  ((getArr nd "specifiers").getD []).map fun s =>
    { imported :=
        match getObj s "imported" with
        | some i => (getStr i "name").getD ""
        | none => "default"
      localName := ((getObj s "local").bind (getStr · "name")).getD "" }

/-- The `ImportDeclaration` push of the walk, guarded by
`node.source && node.source.value` being truthy. -/
def importDeclAt (nd : JNode) : List ImportRec :=
  if nd.ty = some "ImportDeclaration" then
    match getObj nd "source" with
    | some src =>
      match getStr src "value" with
      | some v =>
        if v ≠ "" then
          [{ type := "import", source := v, specifiers := specsOf nd }]
        else []
      | none => []
    | none => []
  else []

/-- The `require(...)` push of the walk, guarded by `node.callee`
existing, being the bare identifier `require`, and
`node.arguments.length > 0 && node.arguments[0].type === "StringLiteral"`
— note the guard checks only the FIRST argument and does not require the
argument to be the sole one. -/
def requireAt (nd : JNode) : List ImportRec :=
  if nd.ty = some "CallExpression" then
    match getObj nd "callee" with
    | some c =>
      if c.ty = some "Identifier" ∧ getStr c "name" = some "require" then
        match (getArr nd "arguments").getD [] with
        | a :: _ =>
          if a.ty = some "StringLiteral" then
            [{ type := "require", source := (getStr a "value").getD "" }]
          else []
        | [] => []
      else []
    | none => []
  else []

/-- The records pushed at one node of the walk, in source order: the
`ImportDeclaration` case, then the require-call case. -/
def importsAt (nd : JNode) : List ImportRec :=
  importDeclAt nd ++ requireAt nd

/-- The children the generic walk recurses into: all elements of array
fields, single-object fields only when their `type` is truthy, and the
back-reference keys `parent`, `leadingComments`, `trailingComments`
skipped. -/
def childNodes (nd : JNode) : List JNode :=
  nd.fields.flatMap fun f =>
    if f.key = "parent" ∨ f.key = "leadingComments" ∨ f.key = "trailingComments" then
      []
    else
      match f with
      | .str _ _ => []
      | .obj _ n => if tyTruthy n.ty then [n] else []
      | .arr _ ns => ns

/-- A child of the generic walk is structurally smaller than its node;
this is the termination argument of the recursive `traverse`, which is
well founded precisely because the back-reference fields that would make
the tree cyclic are skipped by `childNodes`. -/
theorem sizeOf_childNodes {c nd : JNode} (h : c ∈ childNodes nd) :
    sizeOf c < sizeOf nd := by
  obtain ⟨ty, fs⟩ := nd
  simp only [childNodes, JNode.fields, List.mem_flatMap] at h
  obtain ⟨f, hf, hc⟩ := h
  have hfs : sizeOf f < sizeOf fs := List.sizeOf_lt_of_mem hf
  have hnd : sizeOf f < sizeOf (JNode.mk ty fs) := by
    simp only [JNode.mk.sizeOf_spec]
    omega
  split at hc
  · simp at hc
  · cases f with
    | str k v => simp at hc
    | obj k n =>
      simp only at hc
      split at hc
      · simp only [List.mem_singleton] at hc
        subst hc
        have hn : sizeOf c < sizeOf (JField.obj k c) := by
          simp only [JField.obj.sizeOf_spec]
          omega
        omega
      · simp at hc
    | arr k ns =>
      simp only at hc
      have h1 : sizeOf c < sizeOf ns := List.sizeOf_lt_of_mem hc
      have h2 : sizeOf ns < sizeOf (JField.arr k ns) := by
        simp only [JField.arr.sizeOf_spec]
        omega
      omega

/-- `traverse(ast)` of the source: the records pushed at the node, then
the concatenation of the walks of its children, in field order. -/
def collectImports (nd : JNode) : List ImportRec :=
  importsAt nd ++ ((childNodes nd).attach.map (fun c => collectImports c.1)).flatten
termination_by sizeOf nd
decreasing_by exact sizeOf_childNodes c.2

/-- The defining equation of `collectImports` without the `attach`
bookkeeping. -/
theorem collectImports_eq (nd : JNode) :
    collectImports nd = importsAt nd ++ ((childNodes nd).map collectImports).flatten := by
  rw [collectImports, List.attach_map_coe]

/-! ## The regex fallback of the JS extractor

`extractImportsWithRegex` runs two global regexes over the raw text:
`import\s+(?:CLAUSE\s+from\s+)?[quote]([^quotes]+)[quote]` and
`require\s*\(\s*[quote]([^quotes]+)[quote]\s*\)`, where CLAUSE is a
comma-separated list of brace groups, `* as word` forms, or words.  They
are embedded as deterministic scanners over the character list; a global
regex finds the leftmost match from the current position and resumes
after its end. -/

/-- An opening brace character (written by code to keep braces out of
literals). -/
def lbrace : Char := Char.ofNat 123

/-- A closing brace character. -/
def rbrace : Char := Char.ofNat 125

/-- A word character of the regex class backslash-w: ASCII letters,
digits and the underscore. -/
def isWordChar (c : Char) : Bool :=
  c.isAlphanum ∨ c = '_'

/-- A quote character of the class in the regexes: single or double. -/
def isQuote (c : Char) : Bool :=
  c = '\'' ∨ c = '"'

/-- Match a literal character sequence, returning the rest. -/
def dropLit : List Char → List Char → Option (List Char)
  | [], cs => some cs
  | l :: ls, c :: cs => if c = l then dropLit ls cs else none
  | _ :: _, [] => none

/-- Skip zero or more whitespace characters. -/
def dropSpaces0 (cs : List Char) : List Char :=
  cs.dropWhile Char.isWhitespace

/-- Require one or more whitespace characters, then skip them. -/
def dropSpaces1 : List Char → Option (List Char)
  | c :: rest => if c.isWhitespace then some (rest.dropWhile Char.isWhitespace) else none
  | [] => none

/-- Match `[quote]([^quotes]+)[quote]` and return the captured module
string: either quote opens, the capture is one or more characters that
are not quotes, and either quote closes. -/
def quotedSource (cs : List Char) : Option (String × List Char) :=
  match cs with
  | q :: rest =>
    if isQuote q then
      let body := rest.takeWhile (fun c => ¬isQuote c)
      let rest2 := rest.dropWhile (fun c => ¬isQuote c)
      if body.isEmpty then none
      else
        match rest2 with
        | q2 :: rest3 => if isQuote q2 then some (⟨body⟩, rest3) else none
        | [] => none
    else none
  | [] => none

/-- One or more word characters. -/
def word1 (cs : List Char) : Option (List Char) :=
  let w := cs.takeWhile isWordChar
  if w.isEmpty then none else some (cs.drop w.length)

/-- One import-clause item: a brace group, `* as word`, or a word. -/
def clauseItem (cs : List Char) : Option (List Char) :=
  match cs with
  | c :: rest =>
    if c = lbrace then
      let rest2 := rest.dropWhile (fun x => x ≠ rbrace)
      match rest2 with
      | rb :: rest3 => if rb = rbrace then some rest3 else none
      | [] => none
    else if c = '*' then
      (dropSpaces1 rest).bind fun cs1 =>
        (dropLit ("as".toList) cs1).bind fun cs2 =>
          (dropSpaces1 cs2).bind word1
    else word1 cs
  | [] => none

/-- Further clause items, each introduced by a comma with optional
whitespace; a comma not followed by a valid item is left unconsumed, as
the greedy regex repetition would. -/
def clauseRest : Nat → List Char → List Char
  | 0, cs => cs
  | Nat.succ n, cs =>
    match dropSpaces0 cs with
    | c :: cs2 =>
      if c = ',' then
        match clauseItem (dropSpaces0 cs2) with
        | some cs3 => clauseRest n cs3
        | none => cs
      else cs
    | [] => cs

/-- Try the ES6 import regex anchored at the head of `cs`: the literal
`import`, whitespace, optionally a clause followed by `from`, then the
quoted module string. -/
def matchImportAt (cs : List Char) : Option (String × List Char) :=
  (dropLit ("import".toList) cs).bind fun cs1 =>
    (dropSpaces1 cs1).bind fun cs2 =>
      let withClause : Option (String × List Char) :=
        (clauseItem cs2).bind fun cs3 =>
          let cs4 := clauseRest cs3.length cs3
          (dropSpaces1 cs4).bind fun cs5 =>
            (dropLit ("from".toList) cs5).bind fun cs6 =>
              (dropSpaces1 cs6).bind quotedSource
      match withClause with
      | some r => some r
      | none => quotedSource cs2

/-- Try the require regex anchored at the head of `cs`: the literal
`require`, optional whitespace, an opening parenthesis, optional
whitespace, the quoted module string, optional whitespace, a closing
parenthesis. -/
def matchRequireAt (cs : List Char) : Option (String × List Char) :=
  (dropLit ("require".toList) cs).bind fun cs1 =>
    match dropSpaces0 cs1 with
    | c :: cs2 =>
      if c = '(' then
        (quotedSource (dropSpaces0 cs2)).bind fun sr =>
          match dropSpaces0 sr.2 with
          | c2 :: cs3 => if c2 = ')' then some (sr.1, cs3) else none
          | [] => none
      else none
    | [] => none

/-- Scan the whole text with an anchored matcher, leftmost first,
resuming after each match, one fuel unit per consumed character. -/
def scanAll (ty : String) (mt : List Char → Option (String × List Char)) :
    Nat → List Char → List ImportRec
  | 0, _ => []
  | Nat.succ n, cs =>
    match mt cs with
    | some (src, rest) => { type := ty, source := src } :: scanAll ty mt n rest
    | none =>
      match cs with
      | [] => []
      | _ :: t => scanAll ty mt n t

/-- `extractImportsWithRegex(content)`: all ES6-import matches, then all
require matches, exactly the two `while (exec)` loops of the source.  It
is a total function: no input makes it fail. -/
def extractImportsWithRegex (content : String) : List ImportRec :=
  let cs := content.toList
  scanAll "import" matchImportAt (cs.length + 1) cs
    ++ scanAll "require" matchRequireAt (cs.length + 1) cs

/-! ## The Python extractor

The source builds a `python3 -c` script around the file path, runs it
through `promisify(exec)` and parses the printed JSON; any failure of
that whole block (spawn failure, non-zero exit, unparseable output)
falls into the catch, which reads the file and applies the line-anchored
regex fallback.  The external block is a port: `FS.pyAst` returns the
parsed list on success and `none` on any failure.  The options record of
the `exec` invocation is modelled explicitly because the source passes
none: `execAsync` is called with the command string only. -/

/-- The options of a Node `child_process.exec` call; a `timeout` of
`none` is Node's default `timeout: 0`, meaning the child is never killed
on elapsed time. -/
structure ExecOptions where
  timeout : Option Nat := none
  deriving Repr, DecidableEq

/-- The options the source passes to `execAsync` when invoking
`python3 -c`: it passes only the command string, so every option keeps
its default — in particular no timeout is set. -/
def pythonExecOptions : ExecOptions := {}

/-- A dotted-path character of the Python regex captures:
`[a-zA-Z0-9_.]`. -/
def isPyIdentChar (c : Char) : Bool :=
  c.isAlphanum ∨ c = '_' ∨ c = '.'

/-- The line-anchored regex for a plain Python import statement:
the literal at the line start, whitespace, a dotted capture. -/
def matchPyImport (line : List Char) : Option String :=
  (dropLit ("import".toList) line).bind fun cs =>
    (dropSpaces1 cs).bind fun cs2 =>
      let w := cs2.takeWhile isPyIdentChar
      if w.isEmpty then none else some (⟨w⟩)

/-- The line-anchored regex for a from-import statement: `from`,
whitespace, the dotted capture, whitespace, the literal that closes the
form. -/
def matchPyFrom (line : List Char) : Option String :=
  (dropLit ("from".toList) line).bind fun cs =>
    (dropSpaces1 cs).bind fun cs2 =>
      let w := cs2.takeWhile isPyIdentChar
      if w.isEmpty then none
      else
        (dropSpaces1 (cs2.drop w.length)).bind fun cs3 =>
          (dropLit ("import".toList) cs3).map fun _ => (⟨w⟩ : String)

/-- `extractPythonImportsWithRegex(content)`: all plain-import captures
over the lines, then all from-import captures, matching the two
multiline-anchored `while (exec)` loops of the source. -/
def extractPythonImportsWithRegex (content : String) : List ImportRec :=
  let lines := splitOnSep (Char.ofNat 10) content.toList
  (lines.filterMap matchPyImport).map (fun m => { type := "import", source := m })
    ++ (lines.filterMap matchPyFrom).map (fun m => { type := "import_from", source := m })

/-! ## The filesystem and subprocess ports -/

/-- The result of a successful `fs.stat`. -/
structure Stat where
  size : Nat
  isFile : Bool
  deriving Repr, DecidableEq

/-- The external effects the engine performs, as one record of ports.
`stat`, `readUtf8` and `accessOk` model the promise-based `fs` calls
(`none` or `false` covering a rejection), `headNull` models the
null-byte probe of the first 512 bytes (`false` also when opening
fails), `pyAst` the whole python3-subprocess-plus-JSON block, and
`parseJS` the Babel parse with its plugin list (`none` models a thrown
parse error). -/
structure FS where
  stat : Path → Option Stat
  headNull : Path → Bool
  readUtf8 : Path → Option String
  accessOk : Path → Bool
  pyAst : Path → Option (List ImportRec)
  parseJS : String → List String → Option JNode

/-- `extractImportsFromPython(filePath)`: the subprocess block on
success; on its failure the regex fallback over the file content read
again — and when that second read itself rejects, the rejection
propagates (`Except.error`), to be caught by `extractDependencies`. -/
def extractImportsFromPython (fs : FS) (filePath : Path) : Except Unit (List ImportRec) :=
  match fs.pyAst filePath with
  | some found => Except.ok found
  | none =>
    match fs.readUtf8 filePath with
    | some content => Except.ok (extractPythonImportsWithRegex content)
    | none => Except.error ()

/-- The Babel plugin list: jsx, typescript, decorators-legacy,
classProperties, with jsx filtered out unless the extension is a JSX
variant. -/
def babelPlugins (isJSX : Bool) : List String :=
  let plugins := ["jsx", "typescript", "decorators-legacy", "classProperties"]
  if isJSX then plugins else plugins.filter (· ≠ "jsx")

/-- `extractImportsFromJS(content, filePath)`: parse with the
extension-appropriate plugins and walk the tree; on a parse failure fall
back to the two regex scans.  Total by construction: every input yields
a (possibly empty) list. -/
def extractImportsFromJS (fs : FS) (content : String) (filePath : Path) : List ImportRec :=
  let ext := lowerStr (extname filePath)
  let isJSX := ext = ".jsx" ∨ ext = ".tsx"
  match fs.parseJS content (babelPlugins isJSX) with
  | some ast => collectImports ast
  | none => extractImportsWithRegex content

/-! ## The file loader (`src/files/index.js`) -/

/-- The 10 MB size limit: `10 * 1024 * 1024`. -/
def MAX_FILE_SIZE : Nat := 10 * 1024 * 1024

/-- The extension block list of the loader. -/
def BINARY_EXTENSIONS : List String :=
  [".png", ".jpg", ".jpeg", ".gif", ".svg", ".ico", ".pdf", ".zip", ".tar",
   ".gz", ".exe", ".dll", ".so", ".dylib", ".woff", ".woff2", ".ttf", ".eot",
   ".mp4", ".mp3", ".avi", ".mov", ".webm", ".bin"]

/-- `isBinaryByExtension`: lowercased extension in the block list. -/
def isBinaryByExtension (filePath : Path) : Bool :=
  BINARY_EXTENSIONS.contains (lowerStr (extname filePath))

/-- `isBinaryByContent`: a null byte among the first 512 bytes; the port
already folds in the catch that returns false when the file cannot be
opened. -/
def isBinaryByContent (fs : FS) (filePath : Path) : Bool :=
  fs.headNull filePath

/-- `shouldSkipFile`: `some reason` models `{skip: true, reason}`.  The
stat comes first (a rejection is itself a skip), then the size bound,
then the extension check, then the content probe. -/
def shouldSkipFile (fs : FS) (filePath : Path) : Option String :=
  match fs.stat filePath with
  | none => some "Cannot access file"
  | some st =>
    if st.size > MAX_FILE_SIZE then some "File exceeds 10MB limit"
    else if isBinaryByExtension filePath then some "Binary file (by extension)"
    else if isBinaryByContent fs filePath then some "Binary file (by content)"
    else none

/-- The record `loadFile` returns; the unused `reason` and `size` fields
are omitted.  Paths are taken as already canonical, so the
`path.resolve` at the head of `loadFile` is the identity here. -/
structure LoadedFile where
  path : Path
  content : Option String
  skipped : Bool
  deriving Repr, DecidableEq

/-- `loadFile(filePath)`: skip checks first, then the read, whose
rejection is also reported as skipped. -/
def loadFile (fs : FS) (filePath : Path) : LoadedFile :=
  match shouldSkipFile fs filePath with
  | some _ => { path := filePath, content := none, skipped := true }
  | none =>
    match fs.readUtf8 filePath with
    | some c => { path := filePath, content := some c, skipped := false }
    | none => { path := filePath, content := none, skipped := true }

/-! ## The path resolver (`resolveImportPath`) -/

/-- The probe suffix order of `resolveImportPath`: exact, the extension
list, then the directory-index forms. -/
def probeSuffixes : List String :=
  ["", ".js", ".jsx", ".ts", ".tsx", ".py", "/index.js", "/index.ts"]

/-- `resolveImportPath(importSource, fromFile)` with the project root
(`process.cwd()`) passed explicitly.  A bare specifier (neither
dot-relative nor absolute) for which the `node_modules` probe succeeds
is external: `none`.  Otherwise the candidate is resolved against the
directory of `fromFile` and probed with each suffix; the first probe
whose stat succeeds and is a regular file wins; a rejected stat is
treated as absence. -/
def resolveImportPath (fs : FS) (cwd : Path) (importSource : String) (fromFile : Path) :
    Option Path :=
  if startsWithLit importSource "." = false ∧ isAbsolute importSource = false
      ∧ fs.accessOk (joinPath (joinPath cwd "node_modules") importSource) = true then
    none
  else
    let fromDir := dirname fromFile
    let resolved :=
      if isAbsolute importSource then importSource else pathResolve fromDir importSource
    probeSuffixes.findSome? fun suffix =>
      let testPath := resolved ++ suffix
      match fs.stat testPath with
      | some st => if st.isFile then some testPath else none
      | none => none

/-! ## Per-file dependency extraction (`extractDependencies`) -/

/-- A resolved dependency: the raw record spread together with the
`resolvedPath` the resolver produced. -/
structure Dep where
  imp : ImportRec
  resolvedPath : Path
  deriving Repr, DecidableEq

/-- The resolution loop at the end of `extractDependencies`: each raw
record whose source resolves contributes one `Dep`; the others are
dropped. -/
def resolveDeps (fs : FS) (cwd : Path) (imports : List ImportRec) (filePath : Path) :
    List Dep :=
  imports.filterMap fun imp =>
    (resolveImportPath fs cwd imp.source filePath).map fun rp =>
      { imp := imp, resolvedPath := rp }

/-- The extensions dispatched to the JS-family extractor. -/
def jsFamilyExts : List String := [".js", ".jsx", ".ts", ".tsx"]

/-- JS falsiness of `file.content`: null or the empty string. -/
def contentFalsy : Option String → Bool
  | none => true
  | some s => s = ""

/-- `extractDependencies(filePath)`: load the file (skipped or falsy
content gives `[]`), dispatch on the extension (unknown extensions give
`[]`), resolve the raw records; any error escaping the body — only the
Python path can produce one — is caught and gives `[]`. -/
def extractDependencies (fs : FS) (cwd : Path) (filePath : Path) : List Dep :=
  let ext := lowerStr (extname filePath)
  let file := loadFile fs filePath
  if file.skipped ∨ contentFalsy file.content then []
  else
    let importsE : Except Unit (List ImportRec) :=
      if jsFamilyExts.contains ext then
        Except.ok (extractImportsFromJS fs (file.content.getD "") filePath)
      else if ext = ".py" then extractImportsFromPython fs filePath
      else Except.ok []
    match importsE with
    | Except.ok imports => resolveDeps fs cwd imports filePath
    | Except.error _ => []

/-! ## The traversal (`getDependencies`)

The source holds a `Map` keyed by resolved path (insertion-ordered, the
output is its key list) and a `processed` set, and recurses:

- `processFile(p)`: return if processed, else mark processed and loop
  over `extractDependencies(p)`;
- loop body: a dep whose `resolvedPath` is truthy and not yet a map key
  is inserted and `processFile` recurses into it before the loop
  continues.

The recursion is embedded with explicit fuel (`Sum.inl` is a
`processFile` entry, `Sum.inr` the remaining loop of one call); each
call consumes one fuel unit, and `graphFuel` exceeds the size of the
whole call tree, which is finite because `processed` only grows inside
the finite path universe of the graph. -/

/-- The mutable traversal state: the insertion-ordered dependency map
(keys unique) and the processed set. -/
structure TravState where
  dependencyMap : List (Path × Dep)
  processed : List Path
  deriving Repr, DecidableEq

/-- `dependencyMap.has(k)`. -/
def hasKey (m : List (Path × Dep)) (k : Path) : Bool :=
  m.any fun e => e.1 = k

/-- The fuelled recursion of `processFile`. -/
def processF (ed : Path → List Dep) : Nat → Sum Path (List Dep) → TravState → TravState
  | 0, _, st => st
  | Nat.succ n, Sum.inl p, st =>
    if st.processed.contains p then st
    else processF ed n (Sum.inr (ed p)) { st with processed := p :: st.processed }
  | Nat.succ _, Sum.inr [], st => st
  | Nat.succ n, Sum.inr (d :: rest), st =>
    let st1 :=
      if d.resolvedPath ≠ "" ∧ ¬hasKey st.dependencyMap d.resolvedPath then
        processF ed n (Sum.inl d.resolvedPath)
          { st with dependencyMap := st.dependencyMap ++ [(d.resolvedPath, d)] }
      else st
    processF ed n (Sum.inr rest) st1

/-- A finite dependency graph: the per-file results of
`extractDependencies`.  A path without an entry extracts to `[]`, which
is exactly what `extractDependencies` returns for an unreadable or
unknown file. -/
abbrev Graph := List (Path × List Dep)

/-- Look up a file's extraction result. -/
def edeps (g : Graph) (p : Path) : List Dep :=
  (((g.find? fun e => e.1 == p).map fun e => e.2)).getD []

/-- A fuel bound exceeding the size of the traversal's call tree: the
call tree has at most `roots + insertions` entries into `processFile`,
each expanding to a loop over at most all dep records of the graph. -/
def graphFuel (g : Graph) (roots : List Path) : Nat :=
  let total := g.length + (g.map fun e => e.2.length).sum
  (roots.length + total + 1) * (total + 2)

/-- `getDependencies(filePaths)`: process every root in order against
the shared state, then return the key list of the map.  The JS function
takes no further parameter: its traversal depth is unbounded. -/
def getDependencies (g : Graph) (filePaths : List Path) : List Path :=
  let final :=
    filePaths.foldl
      (fun st p => processF (edeps g) (graphFuel g filePaths) (Sum.inl p) st)
      { dependencyMap := [], processed := [] }
  final.dependencyMap.map fun e => e.1

/-- `getDependencies` as the fastScan command invokes it:
`getDependencies(filePaths, maxDepth)`.  The implementation's parameter
list is `(filePaths)` only, so JavaScript discards the extra argument;
the configured depth is never consulted. -/
def getDependenciesAt (g : Graph) (filePaths : List Path) (_maxDepth : Nat) : List Path :=
  getDependencies g filePaths

/-! ## A reference order: depth-first preorder discovery

Reference definitions written from the words of the order property, to
be compared with the embedded `getDependencies`: visit each root in
turn; visiting a file walks its dependency records in order, appends
each dependency with a truthy resolved path at the moment of first
discovery, and fully expands the newly discovered file before moving to
its later siblings; a file is expanded at most once.  The state is the
pair of the discovery list and the already-expanded set; the fuel plays
the same role as in the embedding. -/

mutual

/-- Visit one file: nothing to do when it was already expanded,
otherwise walk its dependency list. -/
def visitSpec (ed : Path → List Dep) : Nat → Path → List Path × List Path → List Path × List Path
  | 0, _, s => s
  | Nat.succ n, p, s =>
    if p ∈ s.2 then s else visitListSpec ed n (ed p) (s.1, p :: s.2)

/-- Walk a dependency list: a dependency with a truthy resolved path
that is not yet discovered is appended to the discovery list and its
file visited at once, before the later siblings. -/
def visitListSpec (ed : Path → List Dep) : Nat → List Dep → List Path × List Path → List Path × List Path
  | 0, _, s => s
  | Nat.succ _, [], s => s
  | Nat.succ n, d :: rest, s =>
    let t := d.resolvedPath
    let s1 := if t ≠ "" ∧ t ∉ s.1 then visitSpec ed n t (s.1 ++ [t], s.2) else s
    visitListSpec ed n rest s1

end

/-- The depth-first preorder discovery order from a list of roots. -/
def dfsDiscoveryOrder (ed : Path → List Dep) (fuel : Nat) (roots : List Path) : List Path :=
  (roots.foldl (fun s p => visitSpec ed fuel p s) ([], [])).1

/-- Every resolved path a graph can hand to the traversal: the targets
of all its dependency records. -/
def depTargets (g : Graph) : List Path :=
  g.flatMap fun e => e.2.map fun d => d.resolvedPath

/-! ## Concrete fixtures

Small graphs and port records used to evaluate the engine on the
example inputs the claims name. -/

/-- A dependency record as `extractDependencies` produces it for a
static ES6 import resolving to `rp`. -/
def mkDep (src rp : String) : Dep :=
  { imp := { type := "import", source := src }, resolvedPath := rp }

/-- The depth example of the claims: `a.js` imports `./b` and `./c`,
and `b.js` imports `./d`. -/
def exDepth : Graph :=
  [("/p/a.js", [mkDep "./b" "/p/b.js", mkDep "./c" "/p/c.js"]),
   ("/p/b.js", [mkDep "./d" "/p/d.js"])]

/-- Mutual imports: `A.js` imports `./B` and `B.js` imports `./A`. -/
def exCycle : Graph :=
  [("/p/A.js", [mkDep "./B" "/p/B.js"]),
   ("/p/B.js", [mkDep "./A" "/p/A.js"])]

/-- A single edge: `A.js` imports `./B`, and `B.js` imports nothing. -/
def exAcyclic : Graph :=
  [("/p/A.js", [mkDep "./B" "/p/B.js"])]

/-- The diamond of the spec: `A` imports `B` and `C`, both import `D`. -/
def exDiamond : Graph :=
  [("/p/A.js", [mkDep "./B" "/p/B.js", mkDep "./C" "/p/C.js"]),
   ("/p/B.js", [mkDep "./D" "/p/D.js"]),
   ("/p/C.js", [mkDep "./D" "/p/D.js"])]

/-- A malformed root `m.js` (its extraction is empty, as for any file
the loader or extractor gives up on) next to a healthy sibling root
`r.js` importing `./s`. -/
def exSibling : Graph :=
  [("/p/r.js", [mkDep "./s" "/p/s.js"])]

/-- A root importing a file that the loader skips (oversized or
binary): the skipped file extracts to nothing, so it has no graph
entry, but it was resolved as a dependency of the root. -/
def exSkip : Graph :=
  [("/p/a.js", [mkDep "./big" "/p/big.bin"])]

/-! ## The claims -/

/-- C1: the claim says the closure builder honors a finite depth bound,
with `closure(a.js, 1)` equal to `b.js, c.js` on the depth example.  The
shipped code has no depth parameter: the fastScan command passes
`maxDepth` but `getDependencies(filePaths)` discards it, so the call
with bound 1 already returns `d.js`, which is at depth 2.  This theorem
evaluates the code at the failing input: the depth-1 call returns all
three files, not the two at depth 1. -/
theorem C1_depth_bound_ignored :
    getDependenciesAt exDepth ["/p/a.js"] 1 = ["/p/b.js", "/p/d.js", "/p/c.js"] ∧
    "/p/d.js" ∈ getDependenciesAt exDepth ["/p/a.js"] 1 ∧
    getDependenciesAt exDepth ["/p/a.js"] 1 ≠ ["/p/b.js", "/p/c.js"] := by
  decide

/-- C2 counterexample: the claim says the output is in breadth-first
discovery order, so for root `a.js` importing `b.js` and `c.js`, where
`b.js` imports `d.js`, the order would be `b, c, d`.  The code recurses
into each new dependency before continuing the loop, so `d.js` (depth 2)
precedes `c.js` (depth 1). -/
theorem C2_counterexample :
    getDependencies exDepth ["/p/a.js"] = ["/p/b.js", "/p/d.js", "/p/c.js"] ∧
    getDependencies exDepth ["/p/a.js"] ≠ ["/p/b.js", "/p/c.js", "/p/d.js"] := by
  decide

/-- `dependencyMap.has` answers membership in the key list. -/
theorem hasKey_iff_mem_keys {m : List (Path × Dep)} {k : Path} :
    hasKey m k = true ↔ k ∈ m.map fun e => e.1 := by
  simp [hasKey, List.any_eq_true, List.mem_map]

/-- The traversal computes, step for step, the reference depth-first
visit: at every fuel level, the key list and processed set of the state
`processF` reaches are the discovery list and expanded set the reference
reaches. -/
theorem processF_eq_visitSpec (ed : Path → List Dep) :
    ∀ fuel : Nat,
      (∀ (p : Path) (st : TravState),
        visitSpec ed fuel p (st.dependencyMap.map fun e => e.1, st.processed) =
          ((processF ed fuel (Sum.inl p) st).dependencyMap.map fun e => e.1,
            (processF ed fuel (Sum.inl p) st).processed)) ∧
      (∀ (l : List Dep) (st : TravState),
        visitListSpec ed fuel l (st.dependencyMap.map fun e => e.1, st.processed) =
          ((processF ed fuel (Sum.inr l) st).dependencyMap.map fun e => e.1,
            (processF ed fuel (Sum.inr l) st).processed)) := by
  intro fuel
  induction fuel with
  | zero =>
    constructor
    · intro p st
      rw [visitSpec, processF]
    · intro l st
      rw [visitListSpec, processF]
  | succ n ih =>
    constructor
    · intro p st
      rw [visitSpec, processF]
      by_cases hmem : p ∈ st.processed
      · have hc : st.processed.contains p = true := by
          simpa using hmem
        rw [if_pos hmem, if_pos hc]
      · have hc : ¬st.processed.contains p = true := by
          simpa using hmem
        rw [if_neg hmem, if_neg hc]
        exact ih.2 (ed p) { st with processed := p :: st.processed }
    · intro l st
      match l with
      | [] => rw [visitListSpec, processF]
      | d :: rest =>
        rw [visitListSpec, processF]
        by_cases hg : d.resolvedPath ≠ "" ∧ ¬hasKey st.dependencyMap d.resolvedPath
        · have hout : d.resolvedPath ∉ st.dependencyMap.map fun e => e.1 := by
            intro hin
            exact hg.2 (hasKey_iff_mem_keys.mpr hin)
          rw [if_pos ⟨hg.1, hout⟩, if_pos hg]
          have hstep :=
            ih.1 d.resolvedPath
              { st with dependencyMap := st.dependencyMap ++ [(d.resolvedPath, d)] }
          have hkeys :
              (({ st with dependencyMap := st.dependencyMap ++ [(d.resolvedPath, d)] }
                  : TravState).dependencyMap.map fun e => e.1) =
                (st.dependencyMap.map fun e => e.1) ++ [d.resolvedPath] := by
            simp
          rw [hkeys] at hstep
          rw [hstep]
          exact ih.2 rest _
        · have hout : ¬(d.resolvedPath ≠ "" ∧
              d.resolvedPath ∉ st.dependencyMap.map fun e => e.1) := by
            intro hin
            exact hg ⟨hin.1, fun hk => hin.2 (hasKey_iff_mem_keys.mp hk)⟩
          rw [if_neg hout, if_neg hg]
          exact ih.2 rest st

/-- The root loop of the traversal against the root loop of the
reference visit. -/
theorem foldl_eq_visitSpec (ed : Path → List Dep) (fuel : Nat) :
    ∀ (roots : List Path) (st : TravState),
      roots.foldl (fun s p => visitSpec ed fuel p s)
          (st.dependencyMap.map fun e => e.1, st.processed) =
        (((roots.foldl (fun st p => processF ed fuel (Sum.inl p) st) st).dependencyMap.map
            fun e => e.1),
          (roots.foldl (fun st p => processF ed fuel (Sum.inl p) st) st).processed) := by
  intro roots
  induction roots with
  | nil => intro st; rfl
  | cons r rest ihr =>
    intro st
    simp only [List.foldl_cons]
    rw [(processF_eq_visitSpec ed fuel).1 r st]
    exact ihr (processF ed fuel (Sum.inl r) st)

/-- C2 as amended: for every dependency graph and root set, the
returned list is exactly the depth-first preorder discovery order of
the reference visit — each dependency is appended at first discovery
and the newly discovered file is fully expanded before its later
siblings — so the depth example yields `b, d, c`, and the diamond (A
pulls in B and C, and both of these then pull in D) yields `B, D, C`. -/
theorem C2_dfs_order :
    (∀ (g : Graph) (roots : List Path),
        getDependencies g roots = dfsDiscoveryOrder (edeps g) (graphFuel g roots) roots) ∧
    getDependencies exDepth ["/p/a.js"] = ["/p/b.js", "/p/d.js", "/p/c.js"] ∧
    getDependencies exDiamond ["/p/A.js"] = ["/p/B.js", "/p/D.js", "/p/C.js"] := by
  refine ⟨?_, by decide, by decide⟩
  intro g roots
  unfold getDependencies dfsDiscoveryOrder
  rw [show (([], []) : List Path × List Path) =
      (((⟨[], []⟩ : TravState).dependencyMap.map fun e => e.1),
        (⟨[], []⟩ : TravState).processed) from rfl]
  rw [foldl_eq_visitSpec (edeps g) (graphFuel g roots) roots ⟨[], []⟩]

/-- C3 counterexample: the claim says roots are never emitted and that
mutual imports A and B from root A give exactly the set with B alone.
The code does not pre-seed the visited set with the roots: it only marks
a root processed when the root is expanded, and the dependency map check
does not exclude roots, so when B re-imports A, the root A is inserted
into the output. -/
theorem C3_counterexample :
    getDependencies exCycle ["/p/A.js"] = ["/p/B.js", "/p/A.js"] ∧
    "/p/A.js" ∈ getDependencies exCycle ["/p/A.js"] := by
  decide

/-- An extraction result handed out by the graph consists of dependency
records whose targets are targets of the graph. -/
theorem edeps_sub_targets (g : Graph) (p : Path) :
    ∀ d ∈ edeps g p, d.resolvedPath ∈ depTargets g := by
  intro d hd
  unfold edeps at hd
  cases hf : g.find? fun e => e.1 == p with
  | none =>
    rw [hf] at hd
    simp at hd
  | some e =>
    rw [hf] at hd
    simp only [Option.map_some', Option.getD_some] at hd
    have he : e ∈ g := List.mem_of_find?_eq_some hf
    unfold depTargets
    rw [List.mem_flatMap]
    exact ⟨e, he, List.mem_map_of_mem _ hd⟩

/-- Every key the traversal ever inserts is the target of a dependency
record of the graph: the only insertion site takes its key from the
dependency list being looped over, and those lists come from `edeps`. -/
theorem processF_keys_targets (g : Graph) :
    ∀ fuel : Nat,
      (∀ (p : Path) (st : TravState),
        (∀ k ∈ st.dependencyMap.map fun e => e.1, k ∈ depTargets g) →
        ∀ k ∈ (processF (edeps g) fuel (Sum.inl p) st).dependencyMap.map fun e => e.1,
          k ∈ depTargets g) ∧
      (∀ (l : List Dep) (st : TravState),
        (∀ d ∈ l, d.resolvedPath ∈ depTargets g) →
        (∀ k ∈ st.dependencyMap.map fun e => e.1, k ∈ depTargets g) →
        ∀ k ∈ (processF (edeps g) fuel (Sum.inr l) st).dependencyMap.map fun e => e.1,
          k ∈ depTargets g) := by
  intro fuel
  induction fuel with
  | zero =>
    constructor
    · intro p st h
      simpa [processF] using h
    · intro l st _ h
      simpa [processF] using h
  | succ n ih =>
    constructor
    · intro p st h
      rw [processF]
      split
      · exact h
      · exact ih.2 (edeps g p) _ (edeps_sub_targets g p) h
    · intro l st hl h
      match l with
      | [] => simpa [processF] using h
      | d :: rest =>
        rw [processF]
        refine ih.2 rest _ (fun e he => hl e (List.mem_cons_of_mem d he)) ?_
        split
        · refine ih.1 d.resolvedPath _ ?_
          intro k hk
          simp only [List.map_append, List.map_cons, List.map_nil, List.mem_append,
            List.mem_singleton] at hk
          cases hk with
          | inl hk => exact h k hk
          | inr hk =>
            rw [hk]
            exact hl d (List.mem_cons_self d rest)
        · exact h

/-- The whole traversal inserts only dependency targets of the graph. -/
theorem getDependencies_sub_targets (g : Graph) (roots : List Path) :
    ∀ p ∈ getDependencies g roots, p ∈ depTargets g := by
  unfold getDependencies
  have haux :
      ∀ (rs : List Path) (st : TravState),
        (∀ k ∈ st.dependencyMap.map fun e => e.1, k ∈ depTargets g) →
        ∀ k ∈ ((rs.foldl
            (fun st p => processF (edeps g) (graphFuel g roots) (Sum.inl p) st)
            st).dependencyMap.map fun e => e.1),
          k ∈ depTargets g := by
    intro rs
    induction rs with
    | nil => intro st h; simpa using h
    | cons r rest ihr =>
      intro st h
      exact ihr _ ((processF_keys_targets g (graphFuel g roots)).1 r st h)
  exact haux roots { dependencyMap := [], processed := [] } (by simp)

/-- C3 as amended: roots are not pre-seeded into the visited set, so a
root can be emitted; every element of the returned closure — root or
not — is the resolved target of some dependency record of some file, so
a root that no file re-imports never appears; and on mutual imports A
and B from single root A the traversal terminates with output `B, A`,
the root emitted because B re-imports it, while the acyclic single edge
gives `B` with the root absent. -/
theorem C3_root_emission :
    (∀ (g : Graph) (roots : List Path) (p : Path),
        p ∈ getDependencies g roots → p ∈ depTargets g) ∧
    getDependencies exCycle ["/p/A.js"] = ["/p/B.js", "/p/A.js"] ∧
    getDependencies exAcyclic ["/p/A.js"] = ["/p/B.js"] ∧
    "/p/A.js" ∉ getDependencies exAcyclic ["/p/A.js"] := by
  exact ⟨fun g roots p hp => getDependencies_sub_targets g roots p hp,
    by decide, by decide, by decide⟩

/-- A closed instance of `C3_root_emission`: the emitted `B.js` of the
cycle example is a dependency target of the cycle graph. -/
theorem C3_root_emission_witness : "/p/B.js" ∈ depTargets exCycle :=
  C3_root_emission.1 exCycle ["/p/A.js"] "/p/B.js" (by decide)

/-- Ports where the python subprocess block fails and the fallback read
of `m.py` yields one from-import line. -/
def fsPyFail : FS :=
  { stat := fun _ => none, headNull := fun _ => false,
    readUtf8 := fun p => if p == "/p/m.py" then some "from os import path" else none,
    accessOk := fun _ => false, pyAst := fun _ => none, parseJS := fun _ _ => none }

/-- C4: the claim says the python3 invocation carries a timeout of a few
seconds, and timeout falls back to the regex path.  The source calls
`execAsync` with the command string only, so every option keeps the Node
default — `timeout: 0`, meaning the child is never killed — and the call
can block forever; only outright failure of the block reaches the regex
fallback, which this theorem also evaluates on a concrete file. -/
theorem C4_no_exec_timeout :
    pythonExecOptions.timeout = none ∧
    extractImportsFromPython fsPyFail "/p/m.py" =
      Except.ok (extractPythonImportsWithRegex "from os import path") ∧
    extractPythonImportsWithRegex "from os import path" =
      [{ type := "import_from", source := "os" }] := by
  refine ⟨rfl, rfl, by decide⟩

/-- The call-expression tree for a require call with two arguments: the
string literal `x` and the identifier `y`. -/
def reqTwoArgsAst : JNode :=
  .mk (some "Program")
    [.arr "body"
      [.mk (some "ExpressionStatement")
        [.obj "expression"
          (.mk (some "CallExpression")
            [.obj "callee" (.mk (some "Identifier") [.str "name" "require"]),
             .arr "arguments" [.mk (some "StringLiteral") [.str "value" "x"],
                               .mk (some "Identifier") [.str "name" "y"]]])]]]

/-- Ports whose Babel parse returns the two-argument require tree. -/
def fsC5 : FS :=
  { stat := fun _ => none, headNull := fun _ => false, readUtf8 := fun _ => none,
    accessOk := fun _ => false, pyAst := fun _ => none,
    parseJS := fun _ _ => some reqTwoArgsAst }

/-- C5 counterexample: the claim says a call with additional arguments,
such as a require of `x` with a second argument `y`, yields no
reference.  The guard in the source checks only that the argument list
is non-empty and that the FIRST argument is a string literal, so the
two-argument call yields a reference with source `x`. -/
theorem C5_counterexample :
    extractImportsFromJS fsC5 "reqsrc" "/p/f.js" = [{ type := "require", source := "x" }] ∧
    extractImportsFromJS fsC5 "reqsrc" "/p/f.js" ≠ [] := by
  have h : extractImportsFromJS fsC5 "reqsrc" "/p/f.js" = [{ type := "require", source := "x" }] := by
    simp [extractImportsFromJS, fsC5, collectImports_eq, reqTwoArgsAst, importsAt,
          importDeclAt, requireAt, childNodes, specsOf, getObj, getStr, getArr,
          JNode.ty, JNode.fields, JField.key, tyTruthy]
  exact ⟨h, by simp [h]⟩

/-- C5 as amended: a walk node contributes a require reference exactly
when it is a call expression whose callee is the bare identifier
`require` and whose argument list is non-empty with a string literal in
FIRST position — extra arguments do not disqualify the call. -/
theorem C5_require_shape (nd : JNode) :
    (∃ r ∈ importsAt nd, r.type = "require") ↔
      nd.ty = some "CallExpression" ∧
        ∃ c, getObj nd "callee" = some c ∧ c.ty = some "Identifier" ∧
          getStr c "name" = some "require" ∧
            ∃ a rest, (getArr nd "arguments").getD [] = a :: rest ∧
              a.ty = some "StringLiteral" := by
  have hdecl : ∀ r ∈ importDeclAt nd, r.type = "import" := by
    intro r hr
    unfold importDeclAt at hr
    split at hr
    · split at hr
      · split at hr
        · split at hr
          · simp only [List.mem_singleton] at hr
            rw [hr]
          · simp at hr
        · simp at hr
      · simp at hr
    · simp at hr
  have hreqm : ∀ r ∈ requireAt nd,
      nd.ty = some "CallExpression" ∧
        ∃ c, getObj nd "callee" = some c ∧ c.ty = some "Identifier" ∧
          getStr c "name" = some "require" ∧
            ∃ a rest, (getArr nd "arguments").getD [] = a :: rest ∧
              a.ty = some "StringLiteral" := by
    intro r hr
    unfold requireAt at hr
    split at hr
    · rename_i h1
      split at hr
      · rename_i c hc
        split at hr
        · rename_i h2
          split at hr
          · rename_i a rest hargs
            split at hr
            · rename_i h3
              exact ⟨h1, c, hc, h2.1, h2.2, a, rest, hargs, h3⟩
            · simp at hr
          · simp at hr
        · simp at hr
      · simp at hr
    · simp at hr
  constructor
  · rintro ⟨r, hr, hty⟩
    rw [importsAt, List.mem_append] at hr
    cases hr with
    | inl h =>
      have := hdecl r h
      rw [hty] at this
      exact absurd this (by decide)
    | inr h => exact hreqm r h
  · rintro ⟨hty, c, hc, hcty, hname, a, rest, hargs, haty⟩
    refine ⟨{ type := "require", source := (getStr a "value").getD "" }, ?_, rfl⟩
    rw [importsAt, List.mem_append]
    right
    unfold requireAt
    simp [hty, hc, hcty, hname, hargs, haty]

/-- A closed instance of `C5_require_shape` at the concrete
two-argument require tree (the call-expression node inside it). -/
theorem C5_require_shape_witness :
    (∃ r ∈ importsAt (.mk (some "CallExpression")
        [.obj "callee" (.mk (some "Identifier") [.str "name" "require"]),
         .arr "arguments" [.mk (some "StringLiteral") [.str "value" "x"],
                           .mk (some "Identifier") [.str "name" "y"]]]), r.type = "require") ↔
      (JNode.mk (some "CallExpression")
        [.obj "callee" (.mk (some "Identifier") [.str "name" "require"]),
         .arr "arguments" [.mk (some "StringLiteral") [.str "value" "x"],
                           .mk (some "Identifier") [.str "name" "y"]]]).ty = some "CallExpression" ∧
        ∃ c, getObj (.mk (some "CallExpression")
            [.obj "callee" (.mk (some "Identifier") [.str "name" "require"]),
             .arr "arguments" [.mk (some "StringLiteral") [.str "value" "x"],
                               .mk (some "Identifier") [.str "name" "y"]]]) "callee" = some c ∧
          c.ty = some "Identifier" ∧ getStr c "name" = some "require" ∧
            ∃ a rest, (getArr (.mk (some "CallExpression")
                [.obj "callee" (.mk (some "Identifier") [.str "name" "require"]),
                 .arr "arguments" [.mk (some "StringLiteral") [.str "value" "x"],
                                   .mk (some "Identifier") [.str "name" "y"]]]) "arguments").getD []
                = a :: rest ∧ a.ty = some "StringLiteral" :=
  C5_require_shape _

/-- Ports whose Babel parse always fails (a thrown parse error on every
input). -/
def fsParseFail : FS :=
  { stat := fun _ => none, headNull := fun _ => false, readUtf8 := fun _ => none,
    accessOk := fun _ => false, pyAst := fun _ => none, parseJS := fun _ _ => none }

/-- Binary-looking text with no import-like or require-like fragment. -/
def binaryJunk : String := "\x00\x01\x02\xfe binary data \x00 here"

/-- C6: extraction never fails — on a syntax-tree parse failure the
JS-family extractor returns the result of the two regex scans, which are
total functions of the input text; binary-looking junk extracts to the
empty list; and a malformed root (whose extraction is empty) does not
stop the traversal of a sibling root, whose dependency is still
returned. -/
theorem C6_extraction_total :
    (∀ (fs : FS) (content : String) (filePath : Path),
        (∀ plugins, fs.parseJS content plugins = none) →
        extractImportsFromJS fs content filePath = extractImportsWithRegex content) ∧
    extractImportsWithRegex binaryJunk = [] ∧
    getDependencies exSibling ["/p/m.js", "/p/r.js"] = ["/p/s.js"] := by
  refine ⟨?_, by decide, by decide⟩
  intro fs content filePath h
  unfold extractImportsFromJS
  simp only [h]

/-- A closed instance of `C6_extraction_total`: with ports whose parse
always fails, extraction of the binary junk equals the regex fallback. -/
theorem C6_extraction_total_witness :
    extractImportsFromJS fsParseFail binaryJunk "/p/f.js" = extractImportsWithRegex binaryJunk :=
  C6_extraction_total.1 fsParseFail binaryJunk "/p/f.js" (fun _ => rfl)

/-- C7: a bare specifier (not dot-relative, not absolute) whose
directory probe under `node_modules` succeeds makes the resolver return
`none`, and consequently no dependency record contributed by the
resolution loop originates from such a specifier — external packages
never enter the closure. -/
theorem C7_external_excluded (fs : FS) (cwd spec fromFile : Path)
    (imports : List ImportRec)
    (h1 : startsWithLit spec "." = false) (h2 : isAbsolute spec = false)
    (h3 : fs.accessOk (joinPath (joinPath cwd "node_modules") spec) = true) :
    resolveImportPath fs cwd spec fromFile = none ∧
    ∀ d ∈ resolveDeps fs cwd imports fromFile, d.imp.source ≠ spec := by
  have hnone : resolveImportPath fs cwd spec fromFile = none := by
    unfold resolveImportPath
    rw [if_pos ⟨h1, h2, h3⟩]
  refine ⟨hnone, ?_⟩
  intro d hd hsrc
  unfold resolveDeps at hd
  rw [List.mem_filterMap] at hd
  obtain ⟨imp, _, hmap⟩ := hd
  obtain ⟨rp, hrp, hdd⟩ := Option.map_eq_some'.mp hmap
  have himp : imp.source = spec := by
    rw [← hdd] at hsrc
    exact hsrc
  rw [himp, hnone] at hrp
  exact Option.noConfusion hrp

/-- Ports where the external-dependency probe succeeds exactly for the
`lodash` directory of the project. -/
def fsExt : FS :=
  { stat := fun _ => none, headNull := fun _ => false, readUtf8 := fun _ => none,
    accessOk := fun p => p == "/proj/node_modules/lodash",
    pyAst := fun _ => none, parseJS := fun _ _ => none }

/-- A closed instance of `C7_external_excluded` for the bare specifier
`lodash` with an installed `lodash` package. -/
theorem C7_external_excluded_witness :
    resolveImportPath fsExt "/proj" "lodash" "/proj/a.js" = none ∧
    ∀ d ∈ resolveDeps fsExt "/proj" [{ type := "require", source := "lodash" }] "/proj/a.js",
      d.imp.source ≠ "lodash" :=
  C7_external_excluded fsExt "/proj" "lodash" "/proj/a.js"
    [{ type := "require", source := "lodash" }] (by decide) (by decide) (by decide)

/-- C8: monotonicity in the depth bound — every path in the closure at
bound `d1` is in the closure at bound `d2 ≥ d1`.  This holds of the code
degenerately: the implementation discards the depth argument (claim C1),
so the two closures are one and the same list. -/
theorem C8_depth_monotone (g : Graph) (roots : List Path) (d1 d2 : Nat)
    (_hd : d1 ≤ d2) (p : Path) (hp : p ∈ getDependenciesAt g roots d1) :
    p ∈ getDependenciesAt g roots d2 :=
  hp

/-- A closed instance of `C8_depth_monotone` on the depth example with
bounds 1 and 2. -/
theorem C8_depth_monotone_witness :
    1 ≤ 2 ∧ "/p/b.js" ∈ getDependenciesAt exDepth ["/p/a.js"] 2 :=
  ⟨by decide, C8_depth_monotone exDepth ["/p/a.js"] 1 2 (by decide) "/p/b.js" (by decide)⟩

/-- A key reported absent by `hasKey` is not among the map keys. -/
theorem not_mem_keys_of_hasKey_false {m : List (Path × Dep)} {k : Path}
    (h : ¬hasKey m k = true) : k ∉ m.map fun e => e.1 := by
  intro hmem
  apply h
  rw [hasKey, List.any_eq_true]
  rw [List.mem_map] at hmem
  obtain ⟨e, he, hk⟩ := hmem
  exact ⟨e, he, by simp [hk]⟩

/-- The traversal step preserves duplicate-freedom of the map keys: a
key is appended only when `hasKey` reports it absent. -/
theorem processF_keys_nodup (ed : Path → List Dep) :
    ∀ (fuel : Nat) (x : Sum Path (List Dep)) (st : TravState),
      (st.dependencyMap.map fun e => e.1).Nodup →
      ((processF ed fuel x st).dependencyMap.map fun e => e.1).Nodup := by
  intro fuel
  induction fuel with
  | zero => intro x st h; simpa [processF] using h
  | succ n ih =>
    intro x st h
    match x with
    | Sum.inl p =>
      rw [processF]
      split
      · exact h
      · exact ih _ _ h
    | Sum.inr [] =>
      simpa [processF] using h
    | Sum.inr (d :: rest) =>
      rw [processF]
      apply ih
      split
      · rename_i hg
        apply ih
        simp only [List.map_append]
        rw [List.nodup_append]
        refine ⟨h, by simp, ?_⟩
        intro a ha hb
        simp only [List.map_cons, List.map_nil, List.mem_singleton] at hb
        rw [hb] at ha
        exact not_mem_keys_of_hasKey_false hg.2 ha
      · exact h

/-- Processing the whole root list preserves the key invariant. -/
theorem foldl_keys_nodup (ed : Path → List Dep) (fuel : Nat) :
    ∀ (roots : List Path) (st : TravState),
      (st.dependencyMap.map fun e => e.1).Nodup →
      (((roots.foldl (fun st p => processF ed fuel (Sum.inl p) st) st).dependencyMap.map
          fun e => e.1)).Nodup := by
  intro roots
  induction roots with
  | nil => intro st h; simpa using h
  | cons r rest ih =>
    intro st h
    exact ih _ (processF_keys_nodup ed fuel (Sum.inl r) st h)

/-- C9: the returned closure never contains the same path twice — the
output is the key list of the dependency map, and a key is inserted only
when the membership check reports it absent, so the recorded entry of a
path is written exactly once, at first discovery, and never reassigned
(the code stores no separate depth; the map entry itself is the record
that is never overwritten). -/
theorem C9_no_duplicates (g : Graph) (roots : List Path) :
    (getDependencies g roots).Nodup := by
  unfold getDependencies
  exact foldl_keys_nodup (edeps g) (graphFuel g roots) roots
    { dependencyMap := [], processed := [] } (by simp)

/-- C10: a file the loader skips — stat size beyond the 10 MB limit,
a blocklisted binary extension, or a null byte in the content probe —
extracts to no imports at all, so its own imports are never followed,
while the file itself still appears in the closure when it was resolved
as a dependency of another file: the concrete conjunct keeps the skipped
`big.bin` in the output even though nothing is expanded beneath it. -/
theorem C10_skip_prunes :
    (∀ (fs : FS) (cwd filePath : Path),
        ((∃ st, fs.stat filePath = some st ∧ st.size > MAX_FILE_SIZE) ∨
          isBinaryByExtension filePath = true ∨ isBinaryByContent fs filePath = true) →
        (shouldSkipFile fs filePath).isSome = true ∧
          extractDependencies fs cwd filePath = []) ∧
    getDependencies exSkip ["/p/a.js"] = ["/p/big.bin"] := by
  refine ⟨?_, by decide⟩
  intro fs cwd filePath h
  have hskip : (shouldSkipFile fs filePath).isSome = true := by
    rcases hstat : fs.stat filePath with _ | st
    · unfold shouldSkipFile
      rw [hstat]
      simp
    · unfold shouldSkipFile
      rw [hstat]
      rcases h with ⟨st2, hst2, hsz⟩ | hbe | hbc
      · rw [hstat] at hst2
        injection hst2 with hst2
        subst hst2
        simp [hsz]
      · by_cases h1 : st.size > MAX_FILE_SIZE
        · simp [h1]
        · simp [h1, hbe]
      · by_cases h1 : st.size > MAX_FILE_SIZE
        · simp [h1]
        · by_cases h2 : isBinaryByExtension filePath = true
          · simp [h1, h2]
          · simp [h1, h2, hbc]
  refine ⟨hskip, ?_⟩
  rcases hs : shouldSkipFile fs filePath with _ | r
  · rw [hs] at hskip
    simp at hskip
  · unfold extractDependencies loadFile
    rw [hs]
    simp [contentFalsy]

/-- Ports where `big.bin` stats just over the 10 MB limit. -/
def fsBig : FS :=
  { stat := fun p => if p == "/p/big.bin" then some { size := 10485761, isFile := true } else none,
    headNull := fun _ => false, readUtf8 := fun _ => none,
    accessOk := fun _ => false, pyAst := fun _ => none, parseJS := fun _ _ => none }

/-- A closed instance of `C10_skip_prunes` at the oversized file. -/
theorem C10_skip_prunes_witness :
    (shouldSkipFile fsBig "/p/big.bin").isSome = true ∧
    extractDependencies fsBig "/p" "/p/big.bin" = [] :=
  C10_skip_prunes.1 fsBig "/p" "/p/big.bin"
    (Or.inl ⟨{ size := 10485761, isFile := true }, by decide, by decide⟩)

end CRC
